import Mathlib

/-!
# Verification of `bignum_mul_u64`

A shallow embedding of the `bignum_mul_u64` primitive of the
`bignum-mul-u64` repository: multiplication of a fixed-capacity,
little-endian, 64-bit-word big number by a 64-bit scalar, with explicit
capacity-overflow detection, null-argument handling and length
normalization.

The repository ships the header `include/bignum_mul_u64.h` (the status
enum and the function signature), the test suites and a benchmark; the
function body itself is not among the sources, so the computation is
modelled from the specification (schoolbook scalar multiplication with
128-bit intermediate products, low-to-high carry threading, the overflow
policy and the normalization post-condition), and checked against the
concrete vectors the tests pin down.

Machine words are `Nat`s, with wrap-around written explicitly as
`% 2 ^ 64`; the fixed storage of capacity `C` is a `List Nat` of length
`C`; a nullable pointer is an `Option`.
-/

namespace BignumMul

/-- The word base: one 64-bit word holds a value in `[0, 2^64)`. -/
def WORD_BASE : Nat := 2 ^ 64

/-- The `bignum_t` storage consumed by the primitive: a fixed array of
64-bit words (least significant first) and the count of significant
words.  The capacity is carried separately as a parameter `C`. -/
structure bignum_t where
  words : List Nat
  len : Nat
deriving DecidableEq

/-- Status codes of `bignum_mul_u64`, from `bignum_mul_u64_status_t`
in `include/bignum_mul_u64.h`. -/
inductive bignum_mul_u64_status_t where
  | SUCCESS
  | ERROR_NULL_ARG
  | ERROR_OVERFLOW
deriving DecidableEq

/-- The integer value of each status code, as fixed by the header:
`SUCCESS = 0`, `ERROR_NULL_ARG = -1`, `ERROR_OVERFLOW = -2`. -/
def statusCode : bignum_mul_u64_status_t → Int
  | .SUCCESS => 0
  | .ERROR_NULL_ARG => -1
  | .ERROR_OVERFLOW => -2

/-- Array read `ws[i]`; out-of-range reads yield `0` (the model never
relies on them for well-formed inputs). -/
def readW : List Nat → Nat → Nat
  | [], _ => 0
  | w :: _, 0 => w
  | _ :: rest, i + 1 => readW rest i

/-- Array write `ws[i] = v`; out-of-range writes are dropped. -/
def writeW : List Nat → Nat → Nat → List Nat
  | [], _, _ => []
  | _ :: rest, 0, v => v :: rest
  | w :: rest, i + 1, v => w :: writeW rest i v

/-- The number denoted by a little-endian word list. -/
def wordsVal : List Nat → Nat
  | [] => 0
  | w :: rest => w + WORD_BASE * wordsVal rest

/-- The mathematical value of a `bignum_t`: its first `len` words,
little-endian. -/
def value (x : bignum_t) : Nat := wordsVal (x.words.take x.len)

/-- Minimal number of words needed for the values stored in `ws`:
the length of `ws` once trailing zero words are discarded. -/
def normLen : List Nat → Nat
  | [] => 0
  | w :: rest =>
      let r := normLen rest
      if r = 0 then (if w = 0 then 0 else 1) else r + 1

/-- Zero-fill a word list on the right up to capacity `C`. -/
def pad (C : Nat) (ws : List Nat) : List Nat :=
  ws ++ List.replicate (C - ws.length) 0

/-- The canonical zero value of capacity `C`: `len = 1`, all words `0`. -/
def zeroBig (C : Nat) : bignum_t :=
  { words := List.replicate C 0, len := 1 }

/-- Storage well-formedness: the word array has exactly `C` entries,
each a 64-bit value. -/
def wfStorage (C : Nat) (x : bignum_t) : Prop :=
  x.words.length = C ∧ ∀ w ∈ x.words, w < WORD_BASE

/-- A well-formed operand: well-formed storage and `1 ≤ len ≤ C`. -/
def wellFormed (C : Nat) (x : bignum_t) : Prop :=
  wfStorage C x ∧ 1 ≤ x.len ∧ x.len ≤ C

/-- The normalization post-condition of the spec: `len` is the minimal
number of words such that `words[len-1] ≠ 0`, with the zero value at
`len = 1`, and every word at index `≥ len` equal to `0`. -/
def normalized (x : bignum_t) : Prop :=
  1 ≤ x.len ∧ (x.len ≠ 1 → readW x.words (x.len - 1) ≠ 0) ∧
    ∀ i, x.len ≤ i → readW x.words i = 0

/-- One pass of schoolbook scalar multiplication over the significant
words: each word is multiplied by the scalar `b`, the incoming carry is
added, the low 64 bits become the output word and the high 64 bits are
carried to the next position.  Returns the low words and the final
carry-out. -/
def mulWords (b : Nat) (carry : Nat) : List Nat → List Nat × Nat
  | [] => ([], carry)
  | w :: rest =>
      let p := w * b + carry
      let r := mulWords b (p / WORD_BASE) rest
      ((p % WORD_BASE) :: r.1, r.2)

/-- Modelled from the spec: the computational core of `bignum_mul_u64`
(the function body is absent from the sources; only its header,
tests and benchmark are present).  Per §4.1 of the spec: a multiply by
`0` always succeeds with the canonical zero; otherwise one low-to-high
pass with carry threading produces `operand.len` low words and a final
carry; the required output length (`operand.len`, or `operand.len + 1`
when a final carry exists) is checked against the capacity `C`, and on
success the result is normalized per §3 (minimal `len`, zero value at
`len = 1`, zero-fill above `len`).  Returns `none` on capacity
overflow. -/
def bignum_mul_u64_compute (C : Nat) (a : bignum_t) (b : Nat) : Option bignum_t :=
  if b = 0 then some (zeroBig C)
  else
    let n := a.len
    let r := mulWords b 0 (a.words.take n)
    let required := if r.2 = 0 then n else n + 1
    if C < required then none
    else
      let outWords := if r.2 = 0 then r.1 else r.1 ++ [r.2]
      some { words := pad C outWords, len := max (normLen outWords) 1 }

/-- Modelled from the spec: `bignum_mul_u64` with its null-argument
policy.  `res0` is the content of the `res` storage before the call
(`none` when the `res` pointer is null), `a0` the operand (`none` when
null).  The second component is the content of the `res` storage after
the call: on a null argument and on overflow it is returned untouched,
so the model exhibits the "no partial write" guarantee. -/
def bignum_mul_u64 (C : Nat) (res0 a0 : Option bignum_t) (b : Nat) :
    bignum_mul_u64_status_t × Option bignum_t :=
  match res0, a0 with
  | none, _ => (.ERROR_NULL_ARG, none)
  | some r, none => (.ERROR_NULL_ARG, some r)
  | some r, some a =>
      match bignum_mul_u64_compute C a b with
      | none => (.ERROR_OVERFLOW, some r)
      | some out => (.SUCCESS, some out)

/-- In-place carry-threaded loop over the shared storage `s`: starting
at index `i`, for `k` steps, read `s[i]`, multiply by `b`, add the
carry, write the low word back to `s[i]` and carry the high word.  The
read of word `i` happens before the write to index `i` and indices
below `i` are never read again, exactly the aliasing discipline the
spec mandates. -/
def inPlaceRun (b : Nat) : List Nat → Nat → Nat → Nat → List Nat × Nat
  | s, carry, _, 0 => (s, carry)
  | s, carry, i, k + 1 =>
      let p := readW s i * b + carry
      inPlaceRun b (writeW s i (p % WORD_BASE)) (p / WORD_BASE) (i + 1) k

/-- Modelled from the spec: the in-place (aliased, `res == a`) execution
of `bignum_mul_u64`, threading the single shared storage through the
loop.  The epilogue is the same as out-of-place: overflow check on the
required length, carry word appended, normalization and zero-fill. -/
def bignum_mul_u64_inplace (C : Nat) (a : bignum_t) (b : Nat) :
    bignum_mul_u64_status_t × bignum_t :=
  if b = 0 then (.SUCCESS, zeroBig C)
  else
    let n := a.len
    let r := inPlaceRun b a.words 0 0 n
    let required := if r.2 = 0 then n else n + 1
    if C < required then (.ERROR_OVERFLOW, a)
    else
      let outWords := if r.2 = 0 then r.1.take n else r.1.take n ++ [r.2]
      (.SUCCESS, { words := pad C outWords, len := max (normLen outWords) 1 })

/-! ### Basic lemmas about reads, writes and word values -/

theorem WORD_BASE_pos : 0 < WORD_BASE := by
  simp [WORD_BASE]

theorem readW_append (xs ys : List Nat) (i : Nat) :
    readW (xs ++ ys) i = if i < xs.length then readW xs i else readW ys (i - xs.length) := by
  induction xs generalizing i with
  | nil => simp [readW]
  | cons x xs ih =>
      cases i with
      | zero => simp [readW]
      | succ j => simpa [readW, Nat.succ_lt_succ_iff, Nat.succ_sub_succ] using ih j

theorem readW_ge_length (ws : List Nat) (i : Nat) (h : ws.length ≤ i) : readW ws i = 0 := by
  induction ws generalizing i with
  | nil => cases i <;> rfl
  | cons w ws ih =>
      cases i with
      | zero => simp at h
      | succ j => exact ih j (Nat.le_of_succ_le_succ h)

theorem readW_of_all_zero (ws : List Nat) (h : ∀ w ∈ ws, w = 0) (i : Nat) :
    readW ws i = 0 := by
  induction ws generalizing i with
  | nil => cases i <;> rfl
  | cons w ws ih =>
      cases i with
      | zero => exact h w (by simp)
      | succ j => exact ih (fun x hx => h x (by simp [hx])) j

theorem writeW_append_cons (pre rest : List Nat) (w v : Nat) :
    writeW (pre ++ w :: rest) pre.length v = pre ++ v :: rest := by
  induction pre with
  | nil => rfl
  | cons p pre ih => simpa [writeW] using ih

theorem readW_append_cons (pre rest : List Nat) (w : Nat) :
    readW (pre ++ w :: rest) pre.length = w := by
  induction pre with
  | nil => rfl
  | cons p pre ih => simpa [readW] using ih

theorem wordsVal_eq_zero_iff (ws : List Nat) : wordsVal ws = 0 ↔ ∀ w ∈ ws, w = 0 := by
  induction ws with
  | nil => simp [wordsVal]
  | cons w ws ih =>
      simp only [wordsVal, Nat.add_eq_zero, Nat.mul_eq_zero, List.mem_cons]
      constructor
      · rintro ⟨hw, hrest⟩ x hx
        rcases hx with rfl | hx
        · exact hw
        · have : wordsVal ws = 0 := by
            rcases hrest with hB | h0
            · exact absurd hB WORD_BASE_pos.ne'
            · exact h0
          exact ih.mp this x hx
      · intro h
        refine ⟨h w (Or.inl rfl), Or.inr (ih.mpr fun x hx => h x (Or.inr hx))⟩

theorem wordsVal_replicate_zero (m : Nat) : wordsVal (List.replicate m 0) = 0 :=
  (wordsVal_eq_zero_iff _).mpr (by simp)

theorem wordsVal_append_replicate_zero (ws : List Nat) (m : Nat) :
    wordsVal (ws ++ List.replicate m 0) = wordsVal ws := by
  induction ws with
  | nil => simpa using wordsVal_replicate_zero m
  | cons w ws ih => simp [wordsVal, ih]

theorem wordsVal_concat (ws : List Nat) (c : Nat) :
    wordsVal (ws ++ [c]) = wordsVal ws + WORD_BASE ^ ws.length * c := by
  induction ws with
  | nil => simp [wordsVal]
  | cons w ws ih => simp [wordsVal, ih]; ring

/-! ### Lemmas about `normLen` -/

theorem normLen_le (ws : List Nat) : normLen ws ≤ ws.length := by
  induction ws with
  | nil => simp [normLen]
  | cons w ws ih =>
      simp only [normLen, List.length_cons]
      split
      · split
        · exact Nat.zero_le _
        · exact Nat.succ_le_succ (Nat.zero_le _)
      · exact Nat.succ_le_succ ih

theorem normLen_eq_zero_iff (ws : List Nat) : normLen ws = 0 ↔ ∀ w ∈ ws, w = 0 := by
  induction ws with
  | nil => simp [normLen]
  | cons w ws ih =>
      simp only [normLen, List.mem_cons]
      constructor
      · intro h
        by_cases hr : normLen ws = 0
        · simp only [hr, if_pos rfl] at h
          by_cases hw : w = 0
          · rintro x (rfl | hx)
            · exact hw
            · exact ih.mp hr x hx
          · simp [hw] at h
        · simp [hr] at h
      · intro h
        have hr : normLen ws = 0 := ih.mpr fun x hx => h x (Or.inr hx)
        simp [hr, h w (Or.inl rfl)]

theorem readW_of_normLen_le (ws : List Nat) (i : Nat) (h : normLen ws ≤ i) :
    readW ws i = 0 := by
  induction ws generalizing i with
  | nil => cases i <;> rfl
  | cons w ws ih =>
      cases i with
      | zero =>
          have h0 : normLen (w :: ws) = 0 := Nat.le_zero.mp h
          exact (normLen_eq_zero_iff _).mp h0 w (by simp)
      | succ j =>
          refine ih j ?_
          simp only [normLen] at h
          by_cases hr : normLen ws = 0
          · simp [hr]
          · simp only [hr, if_neg hr] at h
            exact Nat.le_of_succ_le_succ h

theorem readW_normLen_top (ws : List Nat) (h : normLen ws ≠ 0) :
    readW ws (normLen ws - 1) ≠ 0 := by
  induction ws with
  | nil => simp [normLen] at h
  | cons w ws ih =>
      by_cases hr : normLen ws = 0
      · have hw : w ≠ 0 := by
          intro hw0
          exact h (by simp [normLen, hr, hw0])
        have : normLen (w :: ws) = 1 := by simp [normLen, hr, hw]
        simpa [this, readW] using hw
      · have hcons : normLen (w :: ws) = normLen ws + 1 := by simp [normLen, hr]
        rw [hcons]
        have hi : normLen ws - 1 + 1 = normLen ws := Nat.succ_pred_eq_of_pos (Nat.pos_of_ne_zero hr)
        have : readW (w :: ws) (normLen ws) = readW ws (normLen ws - 1) := by
          rw [← hi]; rfl
        simpa [this] using ih hr

theorem wordsVal_take_of_normLen_le (ws : List Nat) (k : Nat) (h : normLen ws ≤ k) :
    wordsVal (ws.take k) = wordsVal ws := by
  induction ws generalizing k with
  | nil => simp
  | cons w ws ih =>
      cases k with
      | zero =>
          have h0 : normLen (w :: ws) = 0 := Nat.le_zero.mp h
          have := (normLen_eq_zero_iff _).mp h0
          have : wordsVal (w :: ws) = 0 := (wordsVal_eq_zero_iff _).mpr this
          simpa [wordsVal] using this.symm
      | succ m =>
          have hm : normLen ws ≤ m := by
            simp only [normLen] at h
            by_cases hr : normLen ws = 0
            · simp [hr]
            · simp only [hr, if_neg hr] at h
              exact Nat.le_of_succ_le_succ h
          simp [wordsVal, List.take_succ_cons, ih m hm]

theorem normLen_append_replicate_zero (ws : List Nat) (m : Nat) :
    normLen (ws ++ List.replicate m 0) = normLen ws := by
  induction ws with
  | nil =>
      simp only [List.nil_append]
      exact (normLen_eq_zero_iff _).mpr (by simp)
  | cons w ws ih => simp [normLen, ih]

/-! ### Lemmas about `mulWords` -/

theorem mulWords_length (b c : Nat) (ws : List Nat) :
    (mulWords b c ws).1.length = ws.length := by
  induction ws generalizing c with
  | nil => rfl
  | cons w ws ih => simp [mulWords, ih]

theorem mulWords_val (b c : Nat) (ws : List Nat) :
    wordsVal (mulWords b c ws).1 + WORD_BASE ^ ws.length * (mulWords b c ws).2
      = wordsVal ws * b + c := by
  induction ws generalizing c with
  | nil => simp [mulWords, wordsVal]
  | cons w ws ih =>
      simp only [mulWords, wordsVal, List.length_cons]
      have hdm : w * b + c = WORD_BASE * ((w * b + c) / WORD_BASE) + (w * b + c) % WORD_BASE :=
        (Nat.div_add_mod (w * b + c) WORD_BASE).symm
      calc (w * b + c) % WORD_BASE + WORD_BASE * wordsVal (mulWords b ((w * b + c) / WORD_BASE) ws).1
            + WORD_BASE ^ (ws.length + 1) * (mulWords b ((w * b + c) / WORD_BASE) ws).2
          = (w * b + c) % WORD_BASE
            + WORD_BASE * (wordsVal (mulWords b ((w * b + c) / WORD_BASE) ws).1
              + WORD_BASE ^ ws.length * (mulWords b ((w * b + c) / WORD_BASE) ws).2) := by
            ring
        _ = (w * b + c) % WORD_BASE
            + WORD_BASE * (wordsVal ws * b + (w * b + c) / WORD_BASE) := by
            rw [ih]
        _ = (WORD_BASE * ((w * b + c) / WORD_BASE) + (w * b + c) % WORD_BASE)
            + WORD_BASE * (wordsVal ws * b) := by
            ring
        _ = (w + WORD_BASE * wordsVal ws) * b + c := by
            rw [← hdm]; ring

theorem mulWords_carry_eq_zero_of_b_zero (c : Nat) (hc : c = 0) (ws : List Nat) :
    mulWords 0 c ws = (List.replicate ws.length 0, 0) := by
  subst hc
  induction ws with
  | nil => rfl
  | cons w ws ih => simp [mulWords, ih, List.replicate_succ]

theorem mulWords_one (ws : List Nat) (h : ∀ w ∈ ws, w < WORD_BASE) :
    mulWords 1 0 ws = (ws, 0) := by
  induction ws with
  | nil => rfl
  | cons w ws ih =>
      have hw : w < WORD_BASE := h w (by simp)
      have hmod : w % WORD_BASE = w := Nat.mod_eq_of_lt hw
      have hdiv : w / WORD_BASE = 0 := Nat.div_eq_of_lt hw
      simp [mulWords, hmod, hdiv, ih fun x hx => h x (by simp [hx])]

theorem mulWords_all_zero (b : Nat) (ws : List Nat) (h : ∀ w ∈ ws, w = 0) :
    mulWords b 0 ws = (List.replicate ws.length 0, 0) := by
  induction ws with
  | nil => rfl
  | cons w ws ih =>
      have hw : w = 0 := h w (by simp)
      simp [mulWords, hw, ih fun x hx => h x (by simp [hx]), List.replicate_succ]

/-! ### The success case of `bignum_mul_u64_compute` -/

theorem zeroBig_value (C : Nat) : value (zeroBig C) = 0 := by
  refine (wordsVal_eq_zero_iff _).mpr ?_
  intro w hw
  have := List.mem_of_mem_take hw
  exact List.eq_of_mem_replicate this

theorem zeroBig_normalized (C : Nat) : normalized (zeroBig C) := by
  refine ⟨Nat.le_refl 1, fun h => absurd rfl h, fun i _ => ?_⟩
  exact readW_of_all_zero _ (fun w hw => List.eq_of_mem_replicate hw) i

/-- On success the computed result holds exactly `value a * b` and is
normalized: minimal length, zero canonical at `len = 1`, zero words
above `len`. -/
theorem compute_success_spec (C : Nat) (a : bignum_t) (b : Nat) (out : bignum_t)
    (h : bignum_mul_u64_compute C a b = some out) :
    value out = value a * b ∧ normalized out := by
  by_cases hb : b = 0
  · subst hb
    have hz : bignum_mul_u64_compute C a 0 = some (zeroBig C) := by
      simp [bignum_mul_u64_compute]
    rw [hz, Option.some.injEq] at h
    subst h
    exact ⟨by simp [zeroBig_value], zeroBig_normalized C⟩
  · simp only [bignum_mul_u64_compute, if_neg hb] at h
    set ws : List Nat := a.words.take a.len with hws
    set r := mulWords b 0 ws with hr
    by_cases hov : C < (if r.2 = 0 then a.len else a.len + 1)
    · simp [hov] at h
    · simp only [if_neg hov, Option.some.injEq] at h
      set outWords : List Nat := if r.2 = 0 then r.1 else r.1 ++ [r.2] with hout
      have hval : wordsVal outWords = value a * b := by
        have hmw := mulWords_val b 0 ws
        rw [← hr] at hmw
        have hlen : r.1.length = ws.length := by
          rw [hr]; exact mulWords_length b 0 ws
        by_cases hc : r.2 = 0
        · have : wordsVal r.1 = wordsVal ws * b := by
            simpa [hc] using hmw
          simpa [hout, hc, value, hws] using this
        · have : wordsVal (r.1 ++ [r.2]) = wordsVal ws * b := by
            rw [wordsVal_concat, hlen]
            simpa using hmw
          simpa [hout, hc, value, hws] using this
      subst h
      constructor
      · show wordsVal ((pad C outWords).take (max (normLen outWords) 1)) = value a * b
        have h1 : normLen (pad C outWords) = normLen outWords :=
          normLen_append_replicate_zero _ _
        have h2 : normLen (pad C outWords) ≤ max (normLen outWords) 1 := by
          rw [h1]; exact Nat.le_max_left _ _
        rw [wordsVal_take_of_normLen_le _ _ h2]
        rw [show pad C outWords = outWords ++ List.replicate (C - outWords.length) 0 from rfl]
        rw [wordsVal_append_replicate_zero]
        exact hval
      · refine ⟨Nat.le_max_right _ _, ?_, ?_⟩
        · intro hne
          have hnl : normLen outWords ≠ 0 := by
            intro h0
            exact hne (by simp [h0])
          have hmax : max (normLen outWords) 1 = normLen outWords :=
            Nat.max_eq_left (Nat.one_le_iff_ne_zero.mpr hnl)
          rw [hmax]
          have hidx : normLen outWords - 1 < outWords.length :=
            Nat.lt_of_lt_of_le (Nat.pred_lt hnl) (normLen_le outWords)
          have hread : readW (pad C outWords) (normLen outWords - 1)
              = readW outWords (normLen outWords - 1) := by
            rw [show pad C outWords = outWords ++ List.replicate (C - outWords.length) 0 from rfl]
            rw [readW_append, if_pos hidx]
          rw [hread]
          exact readW_normLen_top outWords hnl
        · intro i hi
          have h1 : normLen (pad C outWords) = normLen outWords :=
            normLen_append_replicate_zero _ _
          refine readW_of_normLen_le _ i ?_
          rw [h1]
          exact Nat.le_trans (Nat.le_max_left _ 1) hi

/-! ### Scenario lemmas: zero, identity, overflow -/

/-- Multiplying a zero-valued operand (or any operand by a zero scalar,
handled separately) yields the canonical zero. -/
theorem compute_val_zero (C : Nat) (a : bignum_t) (b : Nat)
    (hC : a.len ≤ C) (hv : value a = 0) :
    bignum_mul_u64_compute C a b = some (zeroBig C) := by
  by_cases hb : b = 0
  · subst hb; simp [bignum_mul_u64_compute]
  · have hall : ∀ w ∈ a.words.take a.len, w = 0 := (wordsVal_eq_zero_iff _).mp hv
    have hmw := mulWords_all_zero b (a.words.take a.len) hall
    have hklen : a.len ⊓ a.words.length ≤ C :=
      Nat.le_trans (Nat.min_le_left _ _) hC
    have hpad : pad C (List.replicate (a.len ⊓ a.words.length) 0) = List.replicate C 0 := by
      rw [pad, List.length_replicate, ← List.replicate_add]
      congr 1
      omega
    have hnl : normLen (List.replicate (a.len ⊓ a.words.length) 0) = 0 :=
      (normLen_eq_zero_iff _).mpr (by simp)
    have hnlt : ¬ C < a.len := Nat.not_lt.mpr hC
    simp only [bignum_mul_u64_compute, if_neg hb, hmw]
    simp [hnlt, hpad, hnl, zeroBig]

/-- Multiplying by the scalar `1` never overflows for an operand whose
significant words fit the capacity. -/
theorem compute_one_isSome (C : Nat) (a : bignum_t) (hwf : wellFormed C a) :
    ∃ out, bignum_mul_u64_compute C a 1 = some out := by
  have hall : ∀ w ∈ a.words.take a.len, w < WORD_BASE :=
    fun w hw => hwf.1.2 w (List.mem_of_mem_take hw)
  have hmw := mulWords_one (a.words.take a.len) hall
  have hnlt : ¬ C < a.len := Nat.not_lt.mpr hwf.2.2
  refine ⟨{ words := pad C (a.words.take a.len),
            len := max (normLen (a.words.take a.len)) 1 }, ?_⟩
  simp [bignum_mul_u64_compute, hmw, hnlt]

/-- When the required output length exceeds the capacity, the
computation reports overflow (returns `none`). -/
theorem compute_overflow (C : Nat) (a : bignum_t) (b : Nat) (hC : a.len ≤ C)
    (hreq : C < (if (mulWords b 0 (a.words.take a.len)).2 = 0 then a.len else a.len + 1)) :
    bignum_mul_u64_compute C a b = none := by
  have hc2 : (mulWords b 0 (a.words.take a.len)).2 ≠ 0 := by
    intro h0
    rw [if_pos h0] at hreq
    exact absurd hreq (Nat.not_lt.mpr hC)
  have hb : b ≠ 0 := by
    intro hb0
    subst hb0
    rw [mulWords_carry_eq_zero_of_b_zero 0 rfl] at hc2
    exact hc2 rfl
  simp only [bignum_mul_u64_compute, if_neg hb]
  simp [hreq]

/-! ### The in-place (aliased) execution refines the out-of-place one -/

theorem take_append_self (xs ys : List Nat) : (xs ++ ys).take xs.length = xs := by
  induction xs with
  | nil => simp
  | cons x xs ih => simp [ih]

theorem take_append_of_len_eq (xs ys : List Nat) (n : Nat) (h : xs.length = n) :
    (xs ++ ys).take n = xs := by
  subst h
  exact take_append_self xs ys

/-- The in-place carry-threaded loop over the shared storage computes
exactly the low words and carry of `mulWords`: low-to-high single-pass
processing with carry threading is aliasing-safe. -/
theorem inPlaceRun_spec (b : Nat) :
    ∀ (k : Nat) (carry : Nat) (pre rest : List Nat), k ≤ rest.length →
    inPlaceRun b (pre ++ rest) carry pre.length k
      = (pre ++ (mulWords b carry (rest.take k)).1 ++ rest.drop k,
         (mulWords b carry (rest.take k)).2) := by
  intro k
  induction k with
  | zero =>
      intro carry pre rest _
      simp [inPlaceRun, mulWords]
  | succ k ih =>
      intro carry pre rest h
      cases rest with
      | nil => simp at h
      | cons w rest =>
          have hk : k ≤ rest.length := Nat.le_of_succ_le_succ (by simpa using h)
          simp only [inPlaceRun, readW_append_cons, writeW_append_cons]
          have hIH := ih ((w * b + carry) / WORD_BASE)
            (pre ++ [(w * b + carry) % WORD_BASE]) rest hk
          simp only [List.append_assoc, List.singleton_append, List.length_append,
            List.length_cons, List.length_nil, Nat.add_zero] at hIH
          rw [hIH]
          simp [mulWords, List.take_succ_cons, List.drop_succ_cons, List.append_assoc]

/-- Whenever the out-of-place computation succeeds, the in-place
(aliased) call produces the same status and the same normalized
result. -/
theorem inplace_eq_outofplace (C : Nat) (a : bignum_t) (b : Nat) (out : bignum_t)
    (hlen : a.len ≤ a.words.length)
    (h : bignum_mul_u64_compute C a b = some out) :
    bignum_mul_u64_inplace C a b = (.SUCCESS, out) := by
  by_cases hb : b = 0
  · subst hb
    have hz : bignum_mul_u64_compute C a 0 = some (zeroBig C) := by
      simp [bignum_mul_u64_compute]
    rw [hz, Option.some.injEq] at h
    subst h
    simp [bignum_mul_u64_inplace]
  · have hrun := inPlaceRun_spec b a.len 0 [] a.words hlen
    simp only [List.nil_append, List.length_nil] at hrun
    have htake : ((mulWords b 0 (a.words.take a.len)).1 ++ a.words.drop a.len).take a.len
        = (mulWords b 0 (a.words.take a.len)).1 := by
      have hl : (mulWords b 0 (a.words.take a.len)).1.length = a.len := by
        rw [mulWords_length]
        simpa using Nat.min_eq_left hlen
      exact take_append_of_len_eq _ _ _ hl
    simp only [bignum_mul_u64_compute, if_neg hb] at h
    by_cases hov : C < (if (mulWords b 0 (a.words.take a.len)).2 = 0 then a.len else a.len + 1)
    · simp [hov] at h
    · simp only [if_neg hov, Option.some.injEq] at h
      simp only [bignum_mul_u64_inplace, if_neg hb, hrun, htake, if_neg hov]
      rw [← h]

/-! ## Claim theorems -/

/-- C1: for every well-formed operand (`1 ≤ len ≤ C`) and every 64-bit
scalar, whenever `bignum_mul_u64` returns `SUCCESS`, the result holds
exactly the mathematical value `operand × scalar`, with `result.len`
the minimal number of words such that `words[len-1] ≠ 0` (the zero
value normalized to `len = 1`), and all words of the result at indices
`≥ len` set to `0`. -/
theorem C1_success_exact_normalized (C : Nat) (a r0 : bignum_t) (b : Nat) (out : bignum_t)
    (hwf : wellFormed C a) (hb : b < WORD_BASE)
    (h : bignum_mul_u64 C (some r0) (some a) b = (.SUCCESS, some out)) :
    value out = value a * b ∧ normalized out := by
  have hc : bignum_mul_u64_compute C a b = some out := by
    rcases hcase : bignum_mul_u64_compute C a b with _ | o
    · simp [bignum_mul_u64, hcase] at h
    · simp only [bignum_mul_u64, hcase, Prod.mk.injEq, Option.some.injEq] at h
      rw [h.2]
  exact compute_success_spec C a b out hc

theorem C1_success_exact_normalized_witness :
    value ⟨[15, 0], 1⟩ = value ⟨[3, 0], 1⟩ * 5 ∧ normalized (⟨[15, 0], 1⟩ : bignum_t) :=
  C1_success_exact_normalized 2 ⟨[3, 0], 1⟩ (zeroBig 2) 5 ⟨[15, 0], 1⟩
    ⟨⟨rfl, by decide⟩, by decide, by decide⟩ (by decide) (by decide)

/-- C2: for every well-formed operand whose required output length
(`operand.len`, or `operand.len + 1` when a final carry exists) exceeds
the capacity `C`, `bignum_mul_u64` returns the capacity-overflow status
and leaves the result storage untouched (no truncated or wrapped
result is written). -/
theorem C2_overflow_no_write (C : Nat) (a r0 : bignum_t) (b : Nat)
    (hwf : wellFormed C a)
    (hreq : C < (if (mulWords b 0 (a.words.take a.len)).2 = 0 then a.len else a.len + 1)) :
    bignum_mul_u64 C (some r0) (some a) b = (.ERROR_OVERFLOW, some r0) := by
  have hc := compute_overflow C a b hwf.2.2 hreq
  simp [bignum_mul_u64, hc]

theorem C2_overflow_no_write_witness :
    bignum_mul_u64 32 (some (zeroBig 32))
        (some ⟨List.replicate 31 0 ++ [2 ^ 64 - 1], 32⟩) 2
      = (.ERROR_OVERFLOW, some (zeroBig 32)) :=
  C2_overflow_no_write 32 ⟨List.replicate 31 0 ++ [2 ^ 64 - 1], 32⟩ (zeroBig 32) 2
    ⟨⟨by decide, by decide⟩, by decide, by decide⟩ (by decide)

/-- C3: for every valid operand and scalar for which the operation
succeeds, the in-place call (result storage aliased with the operand)
produces the same status and the same normalized value as the
out-of-place call into a distinct result buffer. -/
theorem C3_inplace_equiv (C : Nat) (a r0 : bignum_t) (b : Nat) (out : bignum_t)
    (hwf : wellFormed C a)
    (h : bignum_mul_u64 C (some r0) (some a) b = (.SUCCESS, some out)) :
    bignum_mul_u64_inplace C a b = (.SUCCESS, out) := by
  have hc : bignum_mul_u64_compute C a b = some out := by
    rcases hcase : bignum_mul_u64_compute C a b with _ | o
    · simp [bignum_mul_u64, hcase] at h
    · simp only [bignum_mul_u64, hcase, Prod.mk.injEq, Option.some.injEq] at h
      rw [h.2]
  have hlen : a.len ≤ a.words.length := by
    rw [hwf.1.1]
    exact hwf.2.2
  exact inplace_eq_outofplace C a b out hlen hc

theorem C3_inplace_equiv_witness :
    bignum_mul_u64_inplace 2 ⟨[2 ^ 64 - 1, 1], 2⟩ 2
      = (.SUCCESS, ⟨[2 ^ 64 - 2, 3], 2⟩) :=
  C3_inplace_equiv 2 ⟨[2 ^ 64 - 1, 1], 2⟩ (zeroBig 2) 2 ⟨[2 ^ 64 - 2, 3], 2⟩
    ⟨⟨rfl, by decide⟩, by decide, by decide⟩ (by decide)

/-- C4: for every operand and scalar such that the operand is the zero
value (well-formed with value `0`) or the scalar is `0`, the function
returns `SUCCESS` and the result is the canonical zero value
(`len = 1`, all words `0`). -/
theorem C4_absorption (C : Nat) (a r0 : bignum_t) (b : Nat)
    (h : b = 0 ∨ (wellFormed C a ∧ value a = 0)) :
    bignum_mul_u64 C (some r0) (some a) b = (.SUCCESS, some (zeroBig C)) := by
  have hc : bignum_mul_u64_compute C a b = some (zeroBig C) := by
    rcases h with rfl | ⟨hwf, hv⟩
    · simp [bignum_mul_u64_compute]
    · exact compute_val_zero C a b hwf.2.2 hv
  simp [bignum_mul_u64, hc]

theorem C4_absorption_witness :
    bignum_mul_u64 2 (some (zeroBig 2)) (some ⟨[0, 7], 1⟩) 12345
      = (.SUCCESS, some (zeroBig 2)) :=
  C4_absorption 2 ⟨[0, 7], 1⟩ (zeroBig 2) 12345
    (Or.inr ⟨⟨⟨rfl, by decide⟩, by decide, by decide⟩, by decide⟩)

/-- C5: for every well-formed operand, `bignum_mul_u64(result, operand, 1)`
returns `SUCCESS` and the result is value-equal to the operand. -/
theorem C5_identity (C : Nat) (a r0 : bignum_t) (hwf : wellFormed C a) :
    (bignum_mul_u64 C (some r0) (some a) 1).1 = .SUCCESS ∧
    Option.map value (bignum_mul_u64 C (some r0) (some a) 1).2 = some (value a) := by
  obtain ⟨out, hout⟩ := compute_one_isSome C a hwf
  have hspec := compute_success_spec C a 1 out hout
  have hval : value out = value a := by
    simpa using hspec.1
  simp [bignum_mul_u64, hout, hval]

theorem C5_identity_witness :
    (bignum_mul_u64 2 (some (zeroBig 2)) (some ⟨[7, 0], 1⟩) 1).1
        = bignum_mul_u64_status_t.SUCCESS ∧
    Option.map value (bignum_mul_u64 2 (some (zeroBig 2)) (some ⟨[7, 0], 1⟩) 1).2
        = some (value ⟨[7, 0], 1⟩) :=
  C5_identity 2 ⟨[7, 0], 1⟩ (zeroBig 2) ⟨⟨rfl, by decide⟩, by decide, by decide⟩

/-- C6: carry propagation on the spec's two vectors:
`[2^64-1] × 2 = [2^64-2, 1]` with length `2`, and
`[2^64-1, 1] × 2 = [2^64-2, 3]` with length `2` (the carry folds into
the next existing word without growing the length). -/
theorem C6_carry_vectors :
    bignum_mul_u64 32 (some (zeroBig 32))
        (some ⟨(2 ^ 64 - 1) :: List.replicate 31 0, 1⟩) 2
      = (.SUCCESS, some ⟨(2 ^ 64 - 2) :: 1 :: List.replicate 30 0, 2⟩) ∧
    bignum_mul_u64 32 (some (zeroBig 32))
        (some ⟨(2 ^ 64 - 1) :: 1 :: List.replicate 30 0, 2⟩) 2
      = (.SUCCESS, some ⟨(2 ^ 64 - 2) :: 3 :: List.replicate 30 0, 2⟩) := by
  decide

/-- C7 (counterexample): the claim's word list is not the result:
`[2^64-1] × (2^64-1)` does not produce the little-endian words
`[2^64-2, 1]` (that is the value `2^65 - 2`, not `(2^64-1)^2`). -/
theorem C7_counterexample :
    (bignum_mul_u64 32 (some (zeroBig 32))
        (some ⟨(2 ^ 64 - 1) :: List.replicate 31 0, 1⟩) (2 ^ 64 - 1)).2
      ≠ some ⟨(2 ^ 64 - 2) :: 1 :: List.replicate 30 0, 2⟩ := by
  decide

/-- C7 (amended): `[2^64-1] × (2^64-1)` succeeds with the little-endian
words `[1, 2^64-2]` and length `2`, which is exactly `(2^64-1)^2` split
into two 64-bit little-endian words. -/
theorem C7_exact_product :
    bignum_mul_u64 32 (some (zeroBig 32))
        (some ⟨(2 ^ 64 - 1) :: List.replicate 31 0, 1⟩) (2 ^ 64 - 1)
      = (.SUCCESS, some ⟨1 :: (2 ^ 64 - 2) :: List.replicate 30 0, 2⟩) ∧
    value ⟨1 :: (2 ^ 64 - 2) :: List.replicate 30 0, 2⟩ = (2 ^ 64 - 1) ^ 2 := by
  decide

/-- C8: a null `result` or `operand` pointer yields the null-argument
status (integer code `-1`) with the result storage untouched, and every
call returns one of the three status codes `0`, `-1`, `-2`. -/
theorem C8_null_args (C : Nat) (r0 a0 : Option bignum_t) (b : Nat)
    (h : r0 = none ∨ a0 = none) :
    bignum_mul_u64 C r0 a0 b = (.ERROR_NULL_ARG, r0) ∧
    statusCode (bignum_mul_u64 C r0 a0 b).1 = -1 ∧
    ∀ (r1 a1 : Option bignum_t) (b1 : Nat),
      statusCode (bignum_mul_u64 C r1 a1 b1).1 = 0 ∨
      statusCode (bignum_mul_u64 C r1 a1 b1).1 = -1 ∨
      statusCode (bignum_mul_u64 C r1 a1 b1).1 = -2 := by
  have h1 : bignum_mul_u64 C r0 a0 b = (.ERROR_NULL_ARG, r0) := by
    rcases h with rfl | rfl
    · rfl
    · cases r0 with
      | none => rfl
      | some r => rfl
  refine ⟨h1, by rw [h1]; rfl, ?_⟩
  intro r1 a1 b1
  cases (bignum_mul_u64 C r1 a1 b1).1 <;> simp [statusCode]

theorem C8_null_args_witness :
    bignum_mul_u64 32 none none 7 = (.ERROR_NULL_ARG, none) ∧
    statusCode (bignum_mul_u64 32 none none 7).1 = -1 ∧
    ∀ (r1 a1 : Option bignum_t) (b1 : Nat),
      statusCode (bignum_mul_u64 32 r1 a1 b1).1 = 0 ∨
      statusCode (bignum_mul_u64 32 r1 a1 b1).1 = -1 ∨
      statusCode (bignum_mul_u64 32 r1 a1 b1).1 = -2 :=
  C8_null_args 32 none none 7 (Or.inl rfl)

/-- C10: for every scalar, an operand whose `len` field is `0` (below
the well-formed range) multiplies to the canonical zero value with
result length `1`, and the call reports `SUCCESS`. -/
theorem C10_len_zero (C : Nat) (a r0 : bignum_t) (b : Nat) (h : a.len = 0) :
    bignum_mul_u64 C (some r0) (some a) b = (.SUCCESS, some (zeroBig C)) := by
  have hC : a.len ≤ C := by
    rw [h]
    exact Nat.zero_le C
  have hv : value a = 0 := by
    simp [value, h, wordsVal]
  have hc := compute_val_zero C a b hC hv
  simp [bignum_mul_u64, hc]

theorem C10_len_zero_witness :
    bignum_mul_u64 2 (some (zeroBig 2)) (some ⟨[5, 6], 0⟩) 9
      = (.SUCCESS, some (zeroBig 2)) :=
  C10_len_zero 2 ⟨[5, 6], 0⟩ (zeroBig 2) 9 rfl

end BignumMul
